import Mathlib

/-
  Verification of the log-barrier interior-point LP solver from
  lab14/barrier-method.ipynb.

  Embedding choices:
  * real numbers are modelled by the rationals;
  * np.log is an abstract function parameter lg (the control flow of the
    solver never branches on a value of lg, so every claim below is proved
    for an arbitrary lg);
  * each unbounded while loop takes a fuel argument and returns none when
    the fuel runs out, so divergence is represented by none;
  * np.linalg.solve is an exact dense solve that raises on a singular
    matrix; it is modelled by a det test plus the adjugate formula.
-/

namespace Barrier

open Matrix

/-- A numpy vector of length k is a function from Fin k to the rationals. -/
abbrev Vec (k : Nat) := Fin k → ℚ

/-- Executable determinant of a rational matrix, by Laplace expansion along
the first row (Mathlib Matrix.det does not reduce in the kernel). -/
def detQ : {k : Nat} → Matrix (Fin k) (Fin k) ℚ → ℚ
  | 0, _ => 1
  | k+1, M =>
    ∑ j : Fin (k+1), (-1) ^ (j : Nat) * M 0 j * detQ (M.submatrix Fin.succ j.succAbove)

/-- Executable adjugate, entrywise via detQ. -/
def adjQ {k : Nat} (M : Matrix (Fin k) (Fin k) ℚ) : Matrix (Fin k) (Fin k) ℚ :=
  fun i j => detQ (M.updateRow j (Pi.single i 1))

/-- Model of np.linalg.solve: returns the exact solution of M y = v, or none
when M is singular (np.linalg.solve raises LinAlgError there). -/
def linsolve {k : Nat} (M : Matrix (Fin k) (Fin k) ℚ) (v : Vec k) : Option (Vec k) :=
  if detQ M = 0 then none else some ((detQ M)⁻¹ • (adjQ M).mulVec v)

/-- The default value of alpha in backtracking_line_search (0.1). -/
def line_search_default_alpha : ℚ := 1/10

/-- The default value of beta in backtracking_line_search (0.8). -/
def line_search_default_beta : ℚ := 4/5

/-- The default value of eps in newtons_method (1e-4). -/
def newton_default_eps : ℚ := 1/10000

/-- First loop of backtracking_line_search:
while not in_domain_of_f(x + t*dx): t *= beta. -/
def shrink_to_domain {k : Nat} (in_domain_of_f : Vec k → Bool) (x dx : Vec k)
    (beta : ℚ) (t : ℚ) : Nat → Option ℚ
  | 0 => none
  | fuel+1 =>
    if in_domain_of_f (x + t • dx) then some t
    else shrink_to_domain in_domain_of_f x dx beta (beta * t) fuel

/-- Second loop of backtracking_line_search:
while f(x + t*dx) > f(x) + alpha*t*np.dot(df(x), dx): t *= beta. -/
def shrink_armijo {k : Nat} (f : Vec k → ℚ) (df : Vec k → Vec k) (x dx : Vec k)
    (alpha beta : ℚ) (t : ℚ) : Nat → Option ℚ
  | 0 => none
  | fuel+1 =>
    if f (x + t • dx) > f x + alpha * t * (df x ⬝ᵥ dx) then
      shrink_armijo f df x dx alpha beta (beta * t) fuel
    else some t

/-- backtracking_line_search(f, in_domain_of_f, df, x, dx, alpha, beta):
t = 1; shrink t into the domain; then shrink t until the Armijo condition
holds; return t. -/
def backtracking_line_search {k : Nat} (f : Vec k → ℚ) (in_domain_of_f : Vec k → Bool)
    (df : Vec k → Vec k) (x dx : Vec k) (alpha beta : ℚ) (fuel : Nat) : Option ℚ :=
  (shrink_to_domain in_domain_of_f x dx beta 1 fuel).bind
    (fun t => shrink_armijo f df x dx alpha beta t fuel)

/-- Instrumentation of the Armijo loop of backtracking_line_search: the list of
points x + t*dx at which the loop evaluates f, in the order of evaluation
(the loop also evaluates f at x itself each time around).  The recursion
mirrors shrink_armijo exactly. -/
def armijo_evals {k : Nat} (f : Vec k → ℚ) (df : Vec k → Vec k) (x dx : Vec k)
    (alpha beta : ℚ) (t : ℚ) : Nat → List (Vec k)
  | 0 => []
  | fuel+1 =>
    (x + t • dx) ::
      (if f (x + t • dx) > f x + alpha * t * (df x ⬝ᵥ dx) then
        armijo_evals f df x dx alpha beta (beta * t) fuel
      else [])

/-- The while-True loop of newtons_method.  Returns the final point and the
list of iterates appended after the initial one. -/
def newton_loop {k : Nat} (f : Vec k → ℚ) (in_domain_of_f : Vec k → Bool)
    (df : Vec k → Vec k) (ddf : Vec k → Matrix (Fin k) (Fin k) ℚ)
    (eps : ℚ) (lsFuel : Nat) (x : Vec k) : Nat → Option (Vec k × List (Vec k))
  | 0 => none
  | fuel+1 =>
    match linsolve (ddf x) (df x) with
    | none => none
    | some sol =>
      let dx := -sol
      let lambda_sq := -(df x ⬝ᵥ dx)
      if lambda_sq / 2 ≤ eps then some (x, [])
      else
        match backtracking_line_search f in_domain_of_f df x dx
            line_search_default_alpha line_search_default_beta lsFuel with
        | none => none
        | some t =>
          match newton_loop f in_domain_of_f df ddf eps lsFuel (x + t • dx) fuel with
          | none => none
          | some (xf, rest) => some (xf, (x + t • dx) :: rest)

/-- newtons_method(f, in_domain_of_f, df, ddf, x, eps): steps = [x.copy()],
then the while-True loop; returns (x, steps). -/
def newtons_method {k : Nat} (f : Vec k → ℚ) (in_domain_of_f : Vec k → Bool)
    (df : Vec k → Vec k) (ddf : Vec k → Matrix (Fin k) (Fin k) ℚ)
    (x : Vec k) (eps : ℚ) (lsFuel fuel : Nat) : Option (Vec k × List (Vec k)) :=
  (newton_loop f in_domain_of_f df ddf eps lsFuel x fuel).map
    (fun r => (r.1, x :: r.2))

/-- numpy broadcasting M / v for M of shape (p, q) and v of shape (q,):
entry (j, i) is M j i / v i. -/
def npColDiv {p q : Nat} (M : Matrix (Fin p) (Fin q) ℚ) (v : Vec q) :
    Matrix (Fin p) (Fin q) ℚ :=
  fun j i => M j i / v i

/-- np.sum(M, axis=1): row sums of M. -/
def npSumAxis1 {p q : Nat} (M : Matrix (Fin p) (Fin q) ℚ) : Vec p :=
  fun j => ∑ i, M j i

/-- The barrier objective built in barrier_method:
f = lambda x: t * c @ x - np.sum(np.log(b - A @ x)). -/
def barrier_f {m n : Nat} (lg : ℚ → ℚ) (t : ℚ) (c : Vec n)
    (A : Matrix (Fin m) (Fin n) ℚ) (b : Vec m) (x : Vec n) : ℚ :=
  t * (c ⬝ᵥ x) - ∑ i, lg ((b - A.mulVec x) i)

/-- The domain predicate built in barrier_method:
in_domain_of_f = lambda x: all(b - A @ x > 0). -/
def barrier_in_domain {m n : Nat} (A : Matrix (Fin m) (Fin n) ℚ) (b : Vec m)
    (x : Vec n) : Bool :=
  decide (∀ i, 0 < (b - A.mulVec x) i)

/-- The gradient built in barrier_method:
df = lambda x: t * c + np.sum(A.T / (b - A @ x), axis=1). -/
def barrier_df {m n : Nat} (t : ℚ) (c : Vec n)
    (A : Matrix (Fin m) (Fin n) ℚ) (b : Vec m) (x : Vec n) : Vec n :=
  t • c + npSumAxis1 (npColDiv Aᵀ (b - A.mulVec x))

/-- The Hessian built in barrier_method:
ddf = lambda x: (A.T / (b - A @ x)**2) @ A. -/
def barrier_ddf {m n : Nat} (A : Matrix (Fin m) (Fin n) ℚ) (b : Vec m)
    (x : Vec n) : Matrix (Fin n) (Fin n) ℚ :=
  npColDiv Aᵀ (fun i => ((b - A.mulVec x) i) ^ 2) * A

/-- x[-1]: the last coordinate of a vector (0 for the empty vector; numpy
would raise there, but the solver only reads x[-1] when phase_one is true). -/
def lastCoord {k : Nat} (x : Vec k) : ℚ :=
  if h : 0 < k then x ⟨k - 1, Nat.sub_lt h Nat.one_pos⟩ else 0

/-- The outer while condition of barrier_method:
(phase_one and x[-1] > 0) or (not phase_one and m / t >= eps). -/
def outer_guard {k : Nat} (phase_one : Bool) (m : Nat) (eps t : ℚ) (x : Vec k) : Bool :=
  (phase_one && decide (0 < lastCoord x)) || (!phase_one && decide (eps ≤ (m : ℚ) / t))

/-- The outer while loop of barrier_method.  Returns the final x, the list of
outer snapshots appended after the initial one, and the inner Newton traces
(one per stage). -/
def barrier_loop {m n : Nat} (lg : ℚ → ℚ) (c : Vec n) (A : Matrix (Fin m) (Fin n) ℚ)
    (b : Vec m) (eps mu : ℚ) (phase_one : Bool) (lsFuel nFuel : Nat)
    (x : Vec n) (t : ℚ) : Nat → Option (Vec n × List (Vec n) × List (List (Vec n)))
  | 0 => none
  | fuel+1 =>
    if outer_guard phase_one m eps t x then
      match newtons_method (barrier_f lg t c A b) (barrier_in_domain A b)
          (barrier_df t c A b) (barrier_ddf A b) x newton_default_eps lsFuel nFuel with
      | none => none
      | some (x1, inner) =>
        match barrier_loop lg c A b eps mu phase_one lsFuel nFuel x1 (t * mu) fuel with
        | none => none
        | some (xf, steps, newt_steps) => some (xf, x1 :: steps, inner :: newt_steps)
    else some (x, [], [])

/-- barrier_method(c, A, b, x_0, eps, mu, t0, phase_one): x = x_0.copy();
steps = [x.copy()]; newt_steps = []; t = t0; the outer while loop; returns
(x, steps, newt_steps). -/
def barrier_method {m n : Nat} (c : Vec n) (A : Matrix (Fin m) (Fin n) ℚ) (b : Vec m)
    (x_0 : Vec n) (eps mu t0 : ℚ) (phase_one : Bool) (lg : ℚ → ℚ)
    (lsFuel nFuel fuel : Nat) : Option (Vec n × List (Vec n) × List (List (Vec n))) :=
  (barrier_loop lg c A b eps mu phase_one lsFuel nFuel x_0 t0 fuel).map
    (fun r => (r.1, x_0 :: r.2.1, r.2.2))

/-- A point is strictly feasible when b - A x is entrywise strictly positive. -/
def strictFeasible {m n : Nat} (A : Matrix (Fin m) (Fin n) ℚ) (b : Vec m)
    (x : Vec n) : Prop :=
  ∀ i, 0 < b i - A.mulVec x i

/-! ### Heap model (claim C10)

The numpy arrays that the solver mutates or snapshots are modelled as
references into an explicit store.  The only in-place write in the source is
x += t * dx inside newtons_method; x_0 is copied at entry, and every trace
entry is appended as x.copy(), i.e. a fresh allocation.  The arrays c, A, b
are only ever read (every numpy expression on them allocates a new array),
so they are passed by value here; x_0 and all trace entries live in the
store. -/

/-- A store of allocated vectors: cells 0, ..., next-1 are allocated. -/
structure Store (k : Nat) where
  next : Nat
  mem : Nat → Vec k

/-- In-place write to an existing cell (models x += t * dx). -/
def Store.write {k : Nat} (σ : Store k) (r : Nat) (v : Vec k) : Store k :=
  ⟨σ.next, fun s => if s = r then v else σ.mem s⟩

/-- Fresh allocation (models ndarray.copy()); returns the new reference. -/
def Store.alloc {k : Nat} (σ : Store k) (v : Vec k) : Nat × Store k :=
  (σ.next, ⟨σ.next + 1, fun s => if s = σ.next then v else σ.mem s⟩)

/-- Heap version of the while-True loop of newtons_method: x lives at the
reference rx, the update x += t * dx writes that cell in place, and each
appended trace entry is a fresh copy of the cell. -/
def newton_loop_heap {k : Nat} (f : Vec k → ℚ) (in_domain_of_f : Vec k → Bool)
    (df : Vec k → Vec k) (ddf : Vec k → Matrix (Fin k) (Fin k) ℚ)
    (eps : ℚ) (lsFuel : Nat) (rx : Nat) (σ : Store k) :
    Nat → Option (Nat × List Nat × Store k)
  | 0 => none
  | fuel+1 =>
    match linsolve (ddf (σ.mem rx)) (df (σ.mem rx)) with
    | none => none
    | some sol =>
      let dx := -sol
      let lambda_sq := -(df (σ.mem rx) ⬝ᵥ dx)
      if lambda_sq / 2 ≤ eps then some (rx, [], σ)
      else
        match backtracking_line_search f in_domain_of_f df (σ.mem rx) dx
            line_search_default_alpha line_search_default_beta lsFuel with
        | none => none
        | some t =>
          let σ1 := σ.write rx (σ.mem rx + t • dx)
          let r1 := σ1.next
          let σ2 := (σ1.alloc (σ1.mem rx)).2
          match newton_loop_heap f in_domain_of_f df ddf eps lsFuel rx σ2 fuel with
          | none => none
          | some (rf, rest, σf) => some (rf, r1 :: rest, σf)

/-- Heap version of newtons_method: steps = [x.copy()] allocates, and the
loop follows; returns the reference to x (the same cell that was passed in,
as the source returns the same ndarray object). -/
def newtons_method_heap {k : Nat} (f : Vec k → ℚ) (in_domain_of_f : Vec k → Bool)
    (df : Vec k → Vec k) (ddf : Vec k → Matrix (Fin k) (Fin k) ℚ)
    (rx : Nat) (σ : Store k) (eps : ℚ) (lsFuel fuel : Nat) :
    Option (Nat × List Nat × Store k) :=
  let r0 := σ.next
  let σ1 := (σ.alloc (σ.mem rx)).2
  (newton_loop_heap f in_domain_of_f df ddf eps lsFuel rx σ1 fuel).map
    (fun r => (r.1, r0 :: r.2.1, r.2.2))

/-- Heap version of the outer while loop of barrier_method: each stage runs
the heap Newton loop on the cell of x and then appends a fresh copy of that
cell to the outer trace. -/
def barrier_loop_heap {m n : Nat} (lg : ℚ → ℚ) (c : Vec n)
    (A : Matrix (Fin m) (Fin n) ℚ) (b : Vec m) (eps mu : ℚ) (phase_one : Bool)
    (lsFuel nFuel : Nat) (rx : Nat) (t : ℚ) (σ : Store n) :
    Nat → Option (Nat × List Nat × List (List Nat) × Store n)
  | 0 => none
  | fuel+1 =>
    if outer_guard phase_one m eps t (σ.mem rx) then
      match newtons_method_heap (barrier_f lg t c A b) (barrier_in_domain A b)
          (barrier_df t c A b) (barrier_ddf A b) rx σ newton_default_eps
          lsFuel nFuel with
      | none => none
      | some (rx1, inner, σ1) =>
        let r1 := σ1.next
        let σ2 := (σ1.alloc (σ1.mem rx1)).2
        match barrier_loop_heap lg c A b eps mu phase_one lsFuel nFuel rx1 (t * mu)
            σ2 fuel with
        | none => none
        | some (rf, srefs, nrefs, σf) => some (rf, r1 :: srefs, inner :: nrefs, σf)
    else some (rx, [], [], σ)

/-- Heap version of barrier_method: x = x_0.copy() allocates the working
cell, steps = [x.copy()] allocates the first trace entry, then the loop
runs; the caller keeps only references. -/
def barrier_method_heap {m n : Nat} (c : Vec n) (A : Matrix (Fin m) (Fin n) ℚ)
    (b : Vec m) (rx0 : Nat) (eps mu t0 : ℚ) (phase_one : Bool) (lg : ℚ → ℚ)
    (lsFuel nFuel fuel : Nat) (σ : Store n) :
    Option (Nat × List Nat × List (List Nat) × Store n) :=
  let rx := σ.next
  let σ1 := (σ.alloc (σ.mem rx0)).2
  let r0 := σ1.next
  let σ2 := (σ1.alloc (σ1.mem rx)).2
  (barrier_loop_heap lg c A b eps mu phase_one lsFuel nFuel rx t0 σ2 fuel).map
    (fun r => (r.1, r0 :: r.2.1, r.2.2.1, r.2.2.2))

/-! ### Spec-side formulas for the barrier stage (claim C3)

The following four definitions are transcribed from the words of the
specification, to be compared with the closures the code builds. -/

/-- Modelled from the spec: the barrier-augmented objective
f_t(x) = t * c.x - sum_i log (b_i - A_i.x). -/
def spec_barrier_f {m n : Nat} (lg : ℚ → ℚ) (t : ℚ) (c : Vec n)
    (A : Matrix (Fin m) (Fin n) ℚ) (b : Vec m) (x : Vec n) : ℚ :=
  t * (c ⬝ᵥ x) - ∑ i, lg (b i - A.mulVec x i)

/-- Modelled from the spec: the domain predicate b - A x > 0 entrywise. -/
def spec_barrier_domain {m n : Nat} (A : Matrix (Fin m) (Fin n) ℚ) (b : Vec m)
    (x : Vec n) : Prop :=
  ∀ i, 0 < b i - A.mulVec x i

/-- Modelled from the spec: the gradient t*c + sum_i A_i^T / (b_i - A_i.x),
where A_i is the i-th row of A. -/
def spec_barrier_df {m n : Nat} (t : ℚ) (c : Vec n)
    (A : Matrix (Fin m) (Fin n) ℚ) (b : Vec m) (x : Vec n) : Vec n :=
  t • c + ∑ i, (b i - A.mulVec x i)⁻¹ • (fun j => A i j)

/-- Modelled from the spec: the Hessian sum_i (A_i^T A_i) / (b_i - A_i.x)^2,
where A_i^T A_i is the outer product of the i-th row of A with itself. -/
def spec_barrier_ddf {m n : Nat} (A : Matrix (Fin m) (Fin n) ℚ) (b : Vec m)
    (x : Vec n) : Matrix (Fin n) (Fin n) ℚ :=
  ∑ i, ((b i - A.mulVec x i) ^ 2)⁻¹ • vecMulVec (fun j => A i j) (fun j => A i j)

/-- Modelled from the spec: the equivalent Hessian form
A^T diag(1 / (b - A x)^2) A. -/
def spec_barrier_ddf_diag {m n : Nat} (A : Matrix (Fin m) (Fin n) ℚ) (b : Vec m)
    (x : Vec n) : Matrix (Fin n) (Fin n) ℚ :=
  Aᵀ * Matrix.diagonal (fun i => 1 / (b i - A.mulVec x i) ^ 2) * A

/-! ### Basic lemmas about the executable linear solve -/

theorem detQ_eq {k : Nat} (M : Matrix (Fin k) (Fin k) ℚ) : detQ M = M.det := by
  induction k with
  | zero => simp [detQ, Matrix.det_isEmpty]
  | succ k ih =>
    rw [Matrix.det_succ_row_zero, detQ]
    exact Finset.sum_congr rfl (fun j _ => by rw [ih])

theorem adjQ_eq {k : Nat} (M : Matrix (Fin k) (Fin k) ℚ) : adjQ M = M.adjugate := by
  funext i j
  rw [adjQ, detQ_eq, Matrix.adjugate_apply]

/-- linsolve fails exactly on singular matrices. -/
theorem linsolve_eq_none_iff {k : Nat} (M : Matrix (Fin k) (Fin k) ℚ) (v : Vec k) :
    linsolve M v = none ↔ M.det = 0 := by
  rw [linsolve, detQ_eq]
  by_cases h : M.det = 0 <;> simp [h]

/-- When linsolve succeeds, the returned vector solves the system exactly. -/
theorem linsolve_exact {k : Nat} (M : Matrix (Fin k) (Fin k) ℚ) (v w : Vec k)
    (h : linsolve M v = some w) : M.mulVec w = v := by
  rw [linsolve, detQ_eq, adjQ_eq] at h
  by_cases hd : M.det = 0
  · simp [hd] at h
  · simp only [hd, if_false, Option.some_inj] at h
    subst h
    rw [Matrix.mulVec_smul, Matrix.mulVec_mulVec, Matrix.mul_adjugate,
      Matrix.smul_mulVec_assoc, Matrix.one_mulVec, smul_smul,
      inv_mul_cancel₀ hd, one_smul]

/-- Claim C2: each Newton iteration computes the direction dx as the exact
solution of the linear system ddf(x) dx = -df(x), computes the Newton
decrement lambda2 = -df(x).dx, returns the current x when lambda2/2 <= eps,
and otherwise updates x to x + step*dx with the step obtained from the line
search, prepending the new x to the remaining inner trace; the default
Newton tolerance is 1e-4. -/
theorem C2_newton_iteration {k : Nat} (f : Vec k → ℚ) (in_domain_of_f : Vec k → Bool)
    (df : Vec k → Vec k) (ddf : Vec k → Matrix (Fin k) (Fin k) ℚ) (eps : ℚ)
    (lsFuel fuel : Nat) (x sol : Vec k)
    (hsol : linsolve (ddf x) (df x) = some sol) :
    (ddf x).mulVec (-sol) = -(df x)
    ∧ (-(df x ⬝ᵥ -sol) / 2 ≤ eps →
        newton_loop f in_domain_of_f df ddf eps lsFuel x (fuel+1) = some (x, []))
    ∧ (¬(-(df x ⬝ᵥ -sol) / 2 ≤ eps) →
        ∀ step, backtracking_line_search f in_domain_of_f df x (-sol)
            line_search_default_alpha line_search_default_beta lsFuel = some step →
          newton_loop f in_domain_of_f df ddf eps lsFuel x (fuel+1) =
            (newton_loop f in_domain_of_f df ddf eps lsFuel (x + step • -sol) fuel).map
              (fun r => (r.1, (x + step • -sol) :: r.2)))
    ∧ newton_default_eps = 1/10000 := by
  refine ⟨?_, ?_, ?_, rfl⟩
  · rw [Matrix.mulVec_neg, linsolve_exact _ _ _ hsol]
  · intro hstop
    rw [dotProduct_neg, neg_neg] at hstop
    simp [newton_loop, hsol, hstop]
  · intro hgo step hls
    rw [dotProduct_neg, neg_neg] at hgo
    rcases hrec : newton_loop f in_domain_of_f df ddf eps lsFuel (x + step • -sol) fuel with
      _ | ⟨xf, rest⟩ <;>
    · rw [smul_neg] at hrec
      simp [newton_loop, hsol, hgo, hls, hrec]

/-- Concrete instantiation of the Newton iteration claim: at x = 0 with
Hessian 2 and gradient 0 the decrement is 0, so the loop stops at once. -/
theorem C2_newton_iteration_witness :
    newton_loop (fun _ => (0:ℚ)) (fun _ => true) (fun _ => ![0]) (fun _ => !![2])
      (1/10000) 1 ![0] 1 = some (![0], []) :=
  (C2_newton_iteration (fun _ => (0:ℚ)) (fun _ => true) (fun _ => ![0]) (fun _ => !![2])
    (1/10000) 1 0 ![0] ![0]
    (by show linsolve !![(2:ℚ)] ![0] = some ![0]
        rw [linsolve, if_neg (by with_unfolding_all decide : ¬ detQ !![(2:ℚ)] = 0)]
        exact congrArg some (by with_unfolding_all decide))).2.1
    (by with_unfolding_all decide)

/-- Claim C3: the objective, domain predicate, gradient and Hessian the
solver builds at a stage with penalty t coincide with the formulas of the
specification, and the two spec forms of the Hessian agree. -/
theorem C3_barrier_stage_formulas {m n : Nat} (lg : ℚ → ℚ) (t : ℚ) (c : Vec n)
    (A : Matrix (Fin m) (Fin n) ℚ) (b : Vec m) (x : Vec n) :
    barrier_f lg t c A b x = spec_barrier_f lg t c A b x
    ∧ (barrier_in_domain A b x = true ↔ spec_barrier_domain A b x)
    ∧ barrier_df t c A b x = spec_barrier_df t c A b x
    ∧ barrier_ddf A b x = spec_barrier_ddf A b x
    ∧ spec_barrier_ddf A b x = spec_barrier_ddf_diag A b x := by
  refine ⟨rfl, ?_, ?_, ?_, ?_⟩
  · simp only [barrier_in_domain, spec_barrier_domain, decide_eq_true_eq]
    exact Iff.rfl
  · funext j
    simp only [barrier_df, spec_barrier_df, Pi.add_apply, Pi.smul_apply, smul_eq_mul,
      npSumAxis1, npColDiv, Matrix.transpose_apply, Finset.sum_apply, Pi.sub_apply]
    exact congrArg (t * c j + ·)
      (Finset.sum_congr rfl (fun i _ => by rw [div_eq_inv_mul]))
  · funext j l
    simp only [barrier_ddf, spec_barrier_ddf, npColDiv, Matrix.mul_apply,
      Matrix.sum_apply, Matrix.smul_apply, vecMulVec_apply, smul_eq_mul, Pi.sub_apply]
    refine Finset.sum_congr rfl (fun i _ => ?_)
    rw [div_eq_mul_inv, show Aᵀ j i = A i j from rfl]
    ring
  · funext j l
    simp only [spec_barrier_ddf_diag]
    rw [Matrix.mul_apply]
    simp only [Matrix.mul_diagonal, one_div,
      spec_barrier_ddf, Matrix.sum_apply, Matrix.smul_apply, vecMulVec_apply,
      smul_eq_mul]
    exact Finset.sum_congr rfl
      (fun i _ => by rw [show Aᵀ j i = A i j from rfl]; ring)

/-- Claim C6 fails as stated: a Newton step whose Hessian is invertible but
not positive definite (here the 1x1 matrix -1, whose quadratic form at the
vector 1 is negative) makes the solve succeed and the iteration return
normally, with no singularity failure. -/
theorem C6_counterexample :
    (![1] : Vec 1) ⬝ᵥ (!![(-1:ℚ)]).mulVec ![1] < 0
    ∧ newtons_method (fun _ => (0:ℚ)) (fun _ => true) (fun _ => ![1])
        (fun _ => !![(-1:ℚ)]) ![0] (1/10000) 1 1 = some (![0], [![0]]) := by
  with_unfolding_all decide

/-- Claim C6 (amended): the Hessian solve fails exactly on a singular
Hessian, and the failure is surfaced to the caller of the Newton loop as a
failing centering step; an invertible Hessian never triggers it, positive
definite or not. -/
theorem C6_amended {k : Nat} (f : Vec k → ℚ) (in_domain_of_f : Vec k → Bool)
    (df : Vec k → Vec k) (ddf : Vec k → Matrix (Fin k) (Fin k) ℚ) (eps : ℚ)
    (lsFuel fuel : Nat) (x : Vec k) (hsing : (ddf x).det = 0) :
    linsolve (ddf x) (df x) = none
    ∧ newton_loop f in_domain_of_f df ddf eps lsFuel x (fuel+1) = none := by
  have h1 : linsolve (ddf x) (df x) = none := (linsolve_eq_none_iff _ _).2 hsing
  exact ⟨h1, by simp [newton_loop, h1]⟩

/-- Concrete instantiation of the amended claim at the singular Hessian 0. -/
theorem C6_amended_witness :
    linsolve !![(0:ℚ)] ![1] = none
    ∧ newton_loop (fun _ => (0:ℚ)) (fun _ => true) (fun _ => ![1])
        (fun _ => !![(0:ℚ)]) (1/10000) 1 ![0] 1 = none :=
  C6_amended (fun _ => (0:ℚ)) (fun _ => true) (fun _ => ![1]) (fun _ => !![(0:ℚ)])
    (1/10000) 1 0 ![0] (by rw [Matrix.det_fin_one]; rfl)

/-! ### Lemmas about the line search loops -/

/-- The domain-shrinking loop returns a step of the form beta^i * t whose
trial point lies inside the domain. -/
theorem lem_shrink_to_domain_spec {k : Nat} (in_dom : Vec k → Bool) (x dx : Vec k)
    (beta : ℚ) :
    ∀ fuel t t1, shrink_to_domain in_dom x dx beta t fuel = some t1 →
      in_dom (x + t1 • dx) = true ∧ ∃ i : Nat, t1 = beta ^ i * t := by
  intro fuel
  induction fuel with
  | zero => intro t t1 h; exact absurd h (by simp [shrink_to_domain])
  | succ fuel ih =>
    intro t t1 h
    rw [shrink_to_domain] at h
    by_cases hd : in_dom (x + t • dx) = true
    · rw [if_pos hd] at h
      obtain rfl : t = t1 := Option.some_inj.mp h
      exact ⟨hd, 0, by ring⟩
    · rw [if_neg hd] at h
      obtain ⟨hdom, i, hi⟩ := ih (beta * t) t1 h
      exact ⟨hdom, i + 1, by rw [hi]; ring⟩

/-- The Armijo loop returns a step of the form beta^j * t. -/
theorem lem_shrink_armijo_pow {k : Nat} (f : Vec k → ℚ) (df : Vec k → Vec k)
    (x dx : Vec k) (alpha beta : ℚ) :
    ∀ fuel t t2, shrink_armijo f df x dx alpha beta t fuel = some t2 →
      ∃ j : Nat, t2 = beta ^ j * t := by
  intro fuel
  induction fuel with
  | zero => intro t t2 h; exact absurd h (by simp [shrink_armijo])
  | succ fuel ih =>
    intro t t2 h
    rw [shrink_armijo] at h
    by_cases hc : f (x + t • dx) > f x + alpha * t * (df x ⬝ᵥ dx)
    · rw [if_pos hc] at h
      obtain ⟨j, hj⟩ := ih (beta * t) t2 h
      exact ⟨j + 1, by rw [hj]; ring⟩
    · rw [if_neg hc] at h
      obtain rfl : t = t2 := Option.some_inj.mp h
      exact ⟨0, by ring⟩

/-- Every point at which the Armijo loop evaluates f has the form
x + (beta^j * t) • dx. -/
theorem lem_armijo_evals_mem {k : Nat} (f : Vec k → ℚ) (df : Vec k → Vec k)
    (x dx : Vec k) (alpha beta : ℚ) :
    ∀ fuel t p, p ∈ armijo_evals f df x dx alpha beta t fuel →
      ∃ j : Nat, p = x + (beta ^ j * t) • dx := by
  intro fuel
  induction fuel with
  | zero => intro t p h; exact absurd h (by simp [armijo_evals])
  | succ fuel ih =>
    intro t p h
    rw [armijo_evals] at h
    rcases List.mem_cons.mp h with h0 | h1
    · exact ⟨0, by rw [h0]; ring_nf⟩
    · by_cases hc : f (x + t • dx) > f x + alpha * t * (df x ⬝ᵥ dx)
      · rw [if_pos hc] at h1
        obtain ⟨j, hj⟩ := ih (beta * t) p h1
        exact ⟨j + 1, by rw [hj]; ring_nf⟩
      · rw [if_neg hc] at h1
        exact absurd h1 (List.not_mem_nil p)

/-- The barrier domain is closed under shrinking a step toward its base
point: if x + s.dx satisfies b - A(x + s.dx) > 0 and 0 <= s' <= s with
b - A x > 0 not even needed, then x + s'.dx does too, provided the segment
endpoints do.  This is the convexity fact behind the line search guard. -/
theorem lem_barrier_domain_shrink {m n : Nat} (A : Matrix (Fin m) (Fin n) ℚ)
    (b : Vec m) (x dx : Vec n) (hx : barrier_in_domain A b x = true) :
    ∀ s s' : ℚ, 0 ≤ s' → s' ≤ s →
      barrier_in_domain A b (x + s • dx) = true →
      barrier_in_domain A b (x + s' • dx) = true := by
  intro s s' hs' hle hs
  rw [barrier_in_domain, decide_eq_true_eq] at hx hs ⊢
  intro i
  have hxs := hs i
  have hx0 := hx i
  rw [Pi.sub_apply, Matrix.mulVec_add, Matrix.mulVec_smul] at hxs ⊢
  rw [Pi.sub_apply] at hx0
  rw [Pi.add_apply, Pi.smul_apply, smul_eq_mul] at hxs ⊢
  rcases le_or_lt (A.mulVec dx i) 0 with hv | hv
  · have : s' * A.mulVec dx i ≤ 0 := mul_nonpos_of_nonneg_of_nonpos hs' hv
    linarith
  · have : s' * A.mulVec dx i ≤ s * A.mulVec dx i :=
      mul_le_mul_of_nonneg_right hle (le_of_lt hv)
    linarith

/-- Claim C8 fails as stated: with a domain that contains the base point
x = 0 and the first trial point x + dx but not the shrunk trial point, the
Armijo loop evaluates f at the out-of-domain shrunk point (and the search
still returns).  Here f is 100 at the first trial point and 0 elsewhere. -/
theorem C8_counterexample :
    (fun y : Vec 1 => decide (y 0 = 1) || decide (y 0 = 0)) ![0] = true
    ∧ (fun y : Vec 1 => decide (y 0 = 1) || decide (y 0 = 0)) ![(4:ℚ)/5] = false
    ∧ ![(4:ℚ)/5] ∈ armijo_evals (fun y => if y 0 = 1 then (100:ℚ) else 0)
        (fun _ => ![1]) ![0] ![1] (1/10) (4/5) 1 5
    ∧ backtracking_line_search (fun y => if y 0 = 1 then (100:ℚ) else 0)
        (fun y => decide (y 0 = 1) || decide (y 0 = 0)) (fun _ => ![1])
        ![0] ![1] (1/10) (4/5) 5 = some (4/5) := by
  with_unfolding_all decide

/-- Claim C8 (amended): if the domain is closed under shrinking the step
toward x along the direction (as the barrier domain is, by
lem_barrier_domain_shrink), then after the initial domain-shrinking phase
every point at which the Armijo loop evaluates f lies inside the domain,
for any 0 < beta <= 1. -/
theorem C8_amended {k : Nat} (f : Vec k → ℚ) (in_dom : Vec k → Bool)
    (df : Vec k → Vec k) (x dx : Vec k) (alpha beta : ℚ)
    (hb0 : 0 < beta) (hb1 : beta ≤ 1) (fuel fuel2 : Nat) (t1 : ℚ)
    (hshrink : shrink_to_domain in_dom x dx beta 1 fuel = some t1)
    (hstar : ∀ s s' : ℚ, 0 ≤ s' → s' ≤ s →
      in_dom (x + s • dx) = true → in_dom (x + s' • dx) = true) :
    ∀ p ∈ armijo_evals f df x dx alpha beta t1 fuel2, in_dom p = true := by
  intro p hp
  obtain ⟨hdom1, i, hi⟩ := lem_shrink_to_domain_spec in_dom x dx beta fuel 1 t1 hshrink
  obtain ⟨j, hj⟩ := lem_armijo_evals_mem f df x dx alpha beta fuel2 t1 p hp
  have ht1 : 0 < t1 := by
    rw [hi, mul_one]; exact pow_pos hb0 i
  have hjle : beta ^ j * t1 ≤ t1 := by
    have h1 : beta ^ j ≤ 1 := pow_le_one₀ (le_of_lt hb0) hb1
    nlinarith
  have hjpos : 0 ≤ beta ^ j * t1 :=
    le_of_lt (mul_pos (pow_pos hb0 j) ht1)
  rw [hj]
  exact hstar t1 (beta ^ j * t1) hjpos hjle hdom1

/-- Concrete instantiation of the amended line search claim on the
everywhere-true domain. -/
theorem C8_amended_witness :
    ![1] ∈ armijo_evals (fun _ => (0:ℚ)) (fun _ => ![1]) ![0] ![1] (1/10) (4/5) 1 1
    ∧ (fun _ : Vec 1 => true) (![1] : Vec 1) = true :=
  ⟨by with_unfolding_all decide,
    C8_amended (fun _ => (0:ℚ)) (fun _ : Vec 1 => true) (fun _ => ![1]) ![0] ![1]
      (1/10) (4/5) (by with_unfolding_all decide) (by with_unfolding_all decide) 1 1 1
      (by with_unfolding_all decide)
      (fun _ _ _ _ _ => rfl) ![1] (by with_unfolding_all decide)⟩

/-! ### Feasibility invariant (claim C4) -/

/-- The Bool domain guard agrees with the strict feasibility predicate. -/
theorem lem_in_domain_iff {m n : Nat} (A : Matrix (Fin m) (Fin n) ℚ) (b : Vec m)
    (x : Vec n) : barrier_in_domain A b x = true ↔ strictFeasible A b x := by
  rw [barrier_in_domain, decide_eq_true_eq]
  exact Iff.rfl

/-- A successful line search against the barrier domain guard lands on a
point that is still inside the barrier domain. -/
theorem lem_line_search_in_domain {m n : Nat} (A : Matrix (Fin m) (Fin n) ℚ)
    (b : Vec m) (f : Vec n → ℚ) (df : Vec n → Vec n) (x dx : Vec n)
    (alpha beta : ℚ) (hb0 : 0 < beta) (hb1 : beta ≤ 1) (fuel : Nat) (step : ℚ)
    (hx : barrier_in_domain A b x = true)
    (h : backtracking_line_search f (barrier_in_domain A b) df x dx alpha beta fuel =
      some step) :
    barrier_in_domain A b (x + step • dx) = true := by
  obtain ⟨t1, h1, h2⟩ := Option.bind_eq_some.mp h
  obtain ⟨hdom1, i, hi⟩ :=
    lem_shrink_to_domain_spec (barrier_in_domain A b) x dx beta fuel 1 t1 h1
  obtain ⟨j, hj⟩ := lem_shrink_armijo_pow f df x dx alpha beta fuel t1 step h2
  have ht1 : 0 < t1 := by rw [hi, mul_one]; exact pow_pos hb0 i
  have hle : step ≤ t1 := by
    rw [hj]
    have h1' : beta ^ j ≤ 1 := pow_le_one₀ (le_of_lt hb0) hb1
    nlinarith
  have hpos : 0 ≤ step := by
    rw [hj]; exact le_of_lt (mul_pos (pow_pos hb0 j) ht1)
  exact lem_barrier_domain_shrink A b x dx hx t1 step hpos hle hdom1

/-- The Newton loop run against the barrier domain guard keeps every
iterate, and its final point, inside the barrier domain. -/
theorem lem_newton_loop_feasible {m n : Nat} (A : Matrix (Fin m) (Fin n) ℚ)
    (b : Vec m) (f : Vec n → ℚ) (df : Vec n → Vec n)
    (ddf : Vec n → Matrix (Fin n) (Fin n) ℚ) (eps : ℚ) (lsFuel : Nat) :
    ∀ fuel x xf rest, barrier_in_domain A b x = true →
      newton_loop f (barrier_in_domain A b) df ddf eps lsFuel x fuel =
        some (xf, rest) →
      barrier_in_domain A b xf = true
      ∧ ∀ p ∈ rest, barrier_in_domain A b p = true := by
  intro fuel
  induction fuel with
  | zero => intro x xf rest _ h; exact absurd h (by simp [newton_loop])
  | succ fuel ih =>
    intro x xf rest hx h
    rw [newton_loop] at h
    rcases hsol : linsolve (ddf x) (df x) with _ | sol
    · rw [hsol] at h; exact absurd h (by simp)
    · rw [hsol] at h
      simp only at h
      by_cases hstop : -(df x ⬝ᵥ -sol) / 2 ≤ eps
      · rw [if_pos hstop] at h
        obtain ⟨rfl, rfl⟩ := Prod.mk.inj (Option.some_inj.mp h)
        exact ⟨hx, fun p hp => absurd hp (List.not_mem_nil p)⟩
      · rw [if_neg hstop] at h
        rcases hls : backtracking_line_search f (barrier_in_domain A b) df x (-sol)
            line_search_default_alpha line_search_default_beta lsFuel with _ | step
        · rw [hls] at h; exact absurd h (by simp)
        · rw [hls] at h
          simp only at h
          have hx1 : barrier_in_domain A b (x + step • -sol) = true :=
            lem_line_search_in_domain A b f df x (-sol)
              line_search_default_alpha line_search_default_beta
              (by rw [line_search_default_beta]; norm_num)
              (by rw [line_search_default_beta]; norm_num)
              lsFuel step hx hls
          rcases hrec : newton_loop f (barrier_in_domain A b) df ddf eps lsFuel
              (x + step • -sol) fuel with _ | ⟨xf', rest'⟩
          · rw [hrec] at h; exact absurd h (by simp)
          · rw [hrec] at h
            obtain ⟨hxf, hrest⟩ := ih (x + step • -sol) xf' rest' hx1 hrec
            obtain ⟨rfl, rfl⟩ : xf' = xf ∧ (x + step • -sol) :: rest' = rest :=
              Prod.mk.inj (Option.some_inj.mp h)
            refine ⟨hxf, fun p hp => ?_⟩
            rcases List.mem_cons.mp hp with h0 | h1
            · rw [h0]; exact hx1
            · exact hrest p h1

/-- The outer barrier loop keeps the final point, every outer snapshot and
every inner Newton iterate inside the barrier domain. -/
theorem lem_barrier_loop_feasible {m n : Nat} (lg : ℚ → ℚ) (c : Vec n)
    (A : Matrix (Fin m) (Fin n) ℚ) (b : Vec m) (eps mu : ℚ) (phase_one : Bool)
    (lsFuel nFuel : Nat) :
    ∀ fuel x t xf steps newt_steps, barrier_in_domain A b x = true →
      barrier_loop lg c A b eps mu phase_one lsFuel nFuel x t fuel =
        some (xf, steps, newt_steps) →
      barrier_in_domain A b xf = true
      ∧ (∀ p ∈ steps, barrier_in_domain A b p = true)
      ∧ ∀ l ∈ newt_steps, ∀ p ∈ l, barrier_in_domain A b p = true := by
  intro fuel
  induction fuel with
  | zero => intro x t xf steps newts _ h; exact absurd h (by simp [barrier_loop])
  | succ fuel ih =>
    intro x t xf steps newts hx h
    rw [barrier_loop] at h
    by_cases hg : outer_guard phase_one m eps t x = true
    · rw [if_pos hg] at h
      rcases hnm : newtons_method (barrier_f lg t c A b) (barrier_in_domain A b)
          (barrier_df t c A b) (barrier_ddf A b) x newton_default_eps lsFuel nFuel with
        _ | ⟨x1, inner⟩
      · rw [hnm] at h; exact absurd h (by simp)
      · rw [hnm] at h
        simp only at h
        rw [newtons_method] at hnm
        obtain ⟨⟨xl, restl⟩, hloop, hmap⟩ := Option.map_eq_some'.mp hnm
        obtain ⟨heq1, heq2⟩ := Prod.mk.inj hmap
        obtain ⟨hx1, hrest⟩ :=
          lem_newton_loop_feasible A b (barrier_f lg t c A b) (barrier_df t c A b)
            (barrier_ddf A b) newton_default_eps lsFuel nFuel x xl restl hx hloop
        have hx1' : barrier_in_domain A b x1 = true := heq1 ▸ hx1
        have hinner : ∀ p ∈ inner, barrier_in_domain A b p = true := by
          intro p hp
          rw [← heq2] at hp
          rcases List.mem_cons.mp hp with h0 | h1
          · rw [h0]; exact hx
          · exact hrest p h1
        rcases hrec : barrier_loop lg c A b eps mu phase_one lsFuel nFuel x1 (t * mu)
            fuel with _ | ⟨xf', steps', newts'⟩
        · rw [hrec] at h; exact absurd h (by simp)
        · rw [hrec] at h
          obtain ⟨hfeas, hsteps, hnewts⟩ := ih x1 (t * mu) xf' steps' newts' hx1' hrec
          obtain ⟨rfl, hpair⟩ : xf' = xf ∧ (x1 :: steps', inner :: newts') =
              (steps, newts) := Prod.mk.inj (Option.some_inj.mp h)
          obtain ⟨rfl, rfl⟩ := Prod.mk.inj hpair
          refine ⟨hfeas, fun p hp => ?_, fun l hl => ?_⟩
          · rcases List.mem_cons.mp hp with h0 | h1
            · rw [h0]; exact hx1'
            · exact hsteps p h1
          · rcases List.mem_cons.mp hl with h0 | h1
            · intro p hp; exact hinner p (h0 ▸ hp)
            · exact hnewts l h1
    · rw [if_neg hg] at h
      obtain ⟨rfl, hpair⟩ : x = xf ∧ (([] : List (Vec n)), ([] : List (List (Vec n)))) =
          (steps, newts) := Prod.mk.inj (Option.some_inj.mp h)
      obtain ⟨rfl, rfl⟩ := Prod.mk.inj hpair
      exact ⟨hx, fun p hp => absurd hp (List.not_mem_nil p),
        fun l hl => absurd hl (List.not_mem_nil l)⟩

/-- Claim C4: a solve started from a strictly feasible point keeps the
returned point, every outer snapshot and every inner Newton iterate
strictly feasible. -/
theorem C4_iterates_strictly_feasible {m n : Nat} (c : Vec n)
    (A : Matrix (Fin m) (Fin n) ℚ) (b : Vec m) (x_0 : Vec n) (eps mu t0 : ℚ)
    (phase_one : Bool) (lg : ℚ → ℚ) (lsFuel nFuel fuel : Nat)
    (xf : Vec n) (steps : List (Vec n)) (newt_steps : List (List (Vec n)))
    (h0 : strictFeasible A b x_0)
    (hrun : barrier_method c A b x_0 eps mu t0 phase_one lg lsFuel nFuel fuel =
      some (xf, steps, newt_steps)) :
    strictFeasible A b xf
    ∧ (∀ p ∈ steps, strictFeasible A b p)
    ∧ ∀ l ∈ newt_steps, ∀ p ∈ l, strictFeasible A b p := by
  obtain ⟨⟨xl, stepsl, newtsl⟩, hloop, hmap⟩ := Option.map_eq_some'.mp hrun
  obtain ⟨heq1, hpair⟩ := Prod.mk.inj hmap
  obtain ⟨heq2, heq3⟩ := Prod.mk.inj hpair
  have hx0 : barrier_in_domain A b x_0 = true := (lem_in_domain_iff A b x_0).mpr h0
  obtain ⟨hfeas, hsteps, hnewts⟩ :=
    lem_barrier_loop_feasible lg c A b eps mu phase_one lsFuel nFuel fuel x_0 t0
      xl stepsl newtsl hx0 hloop
  refine ⟨(lem_in_domain_iff A b xf).mp (heq1 ▸ hfeas), fun p hp => ?_, fun l hl => ?_⟩
  · rw [← heq2] at hp
    rcases List.mem_cons.mp hp with hp0 | hp1
    · rw [hp0]; exact h0
    · exact (lem_in_domain_iff A b p).mp (hsteps p hp1)
  · intro p hp
    rw [← heq3] at hl
    exact (lem_in_domain_iff A b p).mp (hnewts l hl p hp)

/-- Concrete instantiation of the feasibility claim on the interval
-1 < x < 1 with zero objective: the returned point is strictly feasible. -/
theorem C4_iterates_strictly_feasible_witness :
    strictFeasible !![(1:ℚ); -1] ![1, 1] ![0] :=
  (C4_iterates_strictly_feasible ![0] !![(1:ℚ); -1] ![1, 1] ![0] 1 2 1 false
    (fun _ => 0) 5 3 5 ![0] [![0], ![0], ![0]] [[![0]], [![0]]]
    ((lem_in_domain_iff !![(1:ℚ); -1] ![1, 1] ![0]).mp (by with_unfolding_all decide))
    (by with_unfolding_all decide)).1

/-! ### Outer loop: stage counting, trace shape and stopping rules -/

/-- With phase_one false the outer guard is the duality-gap test. -/
theorem lem_outer_guard_false {k : Nat} (m : Nat) (eps t : ℚ) (x : Vec k) :
    outer_guard false m eps t x = decide (eps ≤ (m : ℚ) / t) := by
  simp [outer_guard]

/-- With phase_one true the outer guard is the sign test on the last
coordinate. -/
theorem lem_outer_guard_true {k : Nat} (m : Nat) (eps t : ℚ) (x : Vec k) :
    outer_guard true m eps t x = decide (0 < lastCoord x) := by
  simp [outer_guard]

/-- On a completed phase-two run the loop performs stages for penalty values
t, t*mu, ..., stopping at the first one whose gap bound m/t drops below eps:
the number of stages performed characterises the least such exponent, and
the loop appends one snapshot and one inner trace per stage. -/
theorem lem_barrier_loop_count {m n : Nat} (lg : ℚ → ℚ) (c : Vec n)
    (A : Matrix (Fin m) (Fin n) ℚ) (b : Vec m) (eps mu : ℚ) (lsFuel nFuel : Nat) :
    ∀ fuel x t xf steps newt_steps,
      barrier_loop lg c A b eps mu false lsFuel nFuel x t fuel =
        some (xf, steps, newt_steps) →
      (m : ℚ) / (t * mu ^ newt_steps.length) < eps
      ∧ (∀ j < newt_steps.length, eps ≤ (m : ℚ) / (t * mu ^ j))
      ∧ steps.length = newt_steps.length := by
  intro fuel
  induction fuel with
  | zero => intro x t xf steps newts h; exact absurd h (by simp [barrier_loop])
  | succ fuel ih =>
    intro x t xf steps newts h
    rw [barrier_loop] at h
    by_cases hg : outer_guard false m eps t x = true
    · rw [if_pos hg] at h
      rw [lem_outer_guard_false, decide_eq_true_eq] at hg
      rcases hnm : newtons_method (barrier_f lg t c A b) (barrier_in_domain A b)
          (barrier_df t c A b) (barrier_ddf A b) x newton_default_eps lsFuel nFuel with
        _ | ⟨x1, inner⟩
      · rw [hnm] at h; exact absurd h (by simp)
      · rw [hnm] at h
        simp only at h
        rcases hrec : barrier_loop lg c A b eps mu false lsFuel nFuel x1 (t * mu)
            fuel with _ | ⟨xf', steps', newts'⟩
        · rw [hrec] at h; exact absurd h (by simp)
        · rw [hrec] at h
          obtain ⟨hlt, hall, hlen⟩ := ih x1 (t * mu) xf' steps' newts' hrec
          obtain ⟨rfl, hpair⟩ := Prod.mk.inj (Option.some_inj.mp h)
          obtain ⟨rfl, rfl⟩ := Prod.mk.inj hpair
          refine ⟨?_, ?_, by simp [hlen]⟩
          · rw [List.length_cons]
            have : t * mu * mu ^ newts'.length = t * mu ^ (newts'.length + 1) := by ring
            rw [← this]; exact hlt
          · intro j hj
            rcases j with _ | j'
            · simpa using hg
            · have hj' : j' < newts'.length := by
                rw [List.length_cons] at hj; omega
              have := hall j' hj'
              have harr : t * mu * mu ^ j' = t * mu ^ (j' + 1) := by ring
              rw [harr] at this
              exact this
    · rw [if_neg hg] at h
      rw [lem_outer_guard_false] at hg
      have hlt : (m : ℚ) / t < eps := by
        rcases lt_or_le ((m : ℚ) / t) eps with h' | h'
        · exact h'
        · exact absurd (by simpa using h') hg
      obtain ⟨rfl, hpair⟩ := Prod.mk.inj (Option.some_inj.mp h)
      obtain ⟨rfl, rfl⟩ := Prod.mk.inj hpair
      exact ⟨by simpa using hlt, by intro j hj; simp at hj, rfl⟩

/-- Claim C1: with phase_one false, a completed solve performs stages
exactly while the gap bound m/t has not dropped below eps: the number k of
inner traces satisfies m / (t0 * mu^k) < eps while every smaller exponent
fails the test (so k is the least such exponent), and the outer trace holds
one snapshot per stage after the initial point. -/
theorem C1_outer_stage_count {m n : Nat} (c : Vec n) (A : Matrix (Fin m) (Fin n) ℚ)
    (b : Vec m) (x_0 : Vec n) (eps mu t0 : ℚ) (lg : ℚ → ℚ) (lsFuel nFuel fuel : Nat)
    (xf : Vec n) (steps : List (Vec n)) (newt_steps : List (List (Vec n)))
    (hrun : barrier_method c A b x_0 eps mu t0 false lg lsFuel nFuel fuel =
      some (xf, steps, newt_steps)) :
    (m : ℚ) / (t0 * mu ^ newt_steps.length) < eps
    ∧ (∀ j < newt_steps.length, eps ≤ (m : ℚ) / (t0 * mu ^ j))
    ∧ steps.length = newt_steps.length + 1 := by
  obtain ⟨⟨xl, stepsl, newtsl⟩, hloop, hmap⟩ := Option.map_eq_some'.mp hrun
  obtain ⟨heq1, hpair⟩ := Prod.mk.inj hmap
  obtain ⟨heq2, heq3⟩ := Prod.mk.inj hpair
  obtain ⟨hlt, hall, hlen⟩ :=
    lem_barrier_loop_count lg c A b eps mu lsFuel nFuel fuel x_0 t0 xl stepsl
      newtsl hloop
  subst heq3
  refine ⟨hlt, hall, ?_⟩
  rw [← heq2, List.length_cons, hlen]

/-- Concrete instantiation of the stage-count claim: m = 2, t0 = 1, mu = 2,
eps = 1, where the least admissible exponent is 2. -/
theorem C1_outer_stage_count_witness :
    ((2:Nat) : ℚ) / (1 * 2 ^ (2:Nat)) < 1
    ∧ (∀ j < (2:Nat), (1:ℚ) ≤ ((2:Nat) : ℚ) / (1 * 2 ^ j))
    ∧ (3:Nat) = 2 + 1 :=
  C1_outer_stage_count ![0] !![(1:ℚ); -1] ![1, 1] ![0] 1 2 1 (fun _ => 0) 5 3 5
    ![0] [![0], ![0], ![0]] [[![0]], [![0]]] (by with_unfolding_all decide)

/-- On any completed run the loop appends exactly one outer snapshot and one
inner trace per stage, whatever the phase flag. -/
theorem lem_barrier_loop_lengths {m n : Nat} (lg : ℚ → ℚ) (c : Vec n)
    (A : Matrix (Fin m) (Fin n) ℚ) (b : Vec m) (eps mu : ℚ) (phase_one : Bool)
    (lsFuel nFuel : Nat) :
    ∀ fuel x t xf steps newt_steps,
      barrier_loop lg c A b eps mu phase_one lsFuel nFuel x t fuel =
        some (xf, steps, newt_steps) →
      steps.length = newt_steps.length := by
  intro fuel
  induction fuel with
  | zero => intro x t xf steps newts h; exact absurd h (by simp [barrier_loop])
  | succ fuel ih =>
    intro x t xf steps newts h
    rw [barrier_loop] at h
    by_cases hg : outer_guard phase_one m eps t x = true
    · rw [if_pos hg] at h
      rcases hnm : newtons_method (barrier_f lg t c A b) (barrier_in_domain A b)
          (barrier_df t c A b) (barrier_ddf A b) x newton_default_eps lsFuel nFuel with
        _ | ⟨x1, inner⟩
      · rw [hnm] at h; exact absurd h (by simp)
      · rw [hnm] at h
        simp only at h
        rcases hrec : barrier_loop lg c A b eps mu phase_one lsFuel nFuel x1 (t * mu)
            fuel with _ | ⟨xf', steps', newts'⟩
        · rw [hrec] at h; exact absurd h (by simp)
        · rw [hrec] at h
          have hlen := ih x1 (t * mu) xf' steps' newts' hrec
          obtain ⟨rfl, hpair⟩ := Prod.mk.inj (Option.some_inj.mp h)
          obtain ⟨rfl, rfl⟩ := Prod.mk.inj hpair
          simp [hlen]
    · rw [if_neg hg] at h
      obtain ⟨rfl, hpair⟩ := Prod.mk.inj (Option.some_inj.mp h)
      obtain ⟨rfl, rfl⟩ := Prod.mk.inj hpair
      rfl

/-- Claim C7 fails as stated: on a completed two-stage solve the outer trace
has three entries (the initial point plus one snapshot per stage), not two,
so its length differs from the number of stages performed. -/
theorem C7_counterexample :
    barrier_method ![0] !![(1:ℚ); -1] ![1, 1] ![0] 1 2 1 false (fun _ => 0) 5 3 5 =
      some (![0], [![0], ![0], ![0]], [[![0]], [![0]]])
    ∧ ([(![0] : Vec 1), ![0], ![0]].length ≠ [[(![0] : Vec 1)], [![0]]].length) := by
  with_unfolding_all decide

/-- Claim C7 (amended): the outer trace starts with the initial point and
then holds exactly one snapshot per barrier stage, so its length is the
number of stages performed plus one. -/
theorem C7_amended {m n : Nat} (c : Vec n) (A : Matrix (Fin m) (Fin n) ℚ)
    (b : Vec m) (x_0 : Vec n) (eps mu t0 : ℚ) (phase_one : Bool) (lg : ℚ → ℚ)
    (lsFuel nFuel fuel : Nat) (xf : Vec n) (steps : List (Vec n))
    (newt_steps : List (List (Vec n)))
    (hrun : barrier_method c A b x_0 eps mu t0 phase_one lg lsFuel nFuel fuel =
      some (xf, steps, newt_steps)) :
    steps.length = newt_steps.length + 1 ∧ steps.head? = some x_0 := by
  obtain ⟨⟨xl, stepsl, newtsl⟩, hloop, hmap⟩ := Option.map_eq_some'.mp hrun
  obtain ⟨heq1, hpair⟩ := Prod.mk.inj hmap
  obtain ⟨heq2, heq3⟩ := Prod.mk.inj hpair
  have hlen := lem_barrier_loop_lengths lg c A b eps mu phase_one lsFuel nFuel
    fuel x_0 t0 xl stepsl newtsl hloop
  subst heq3
  constructor
  · rw [← heq2, List.length_cons, hlen]
  · rw [← heq2]; rfl

/-- Concrete instantiation of the amended outer-trace claim on a two-stage
solve. -/
theorem C7_amended_witness :
    ([(![0] : Vec 1), ![0], ![0]].length = [[(![0] : Vec 1)], [![0]]].length + 1)
    ∧ [(![0] : Vec 1), ![0], ![0]].head? = some ![0] :=
  C7_amended ![0] !![(1:ℚ); -1] ![1, 1] ![0] 1 2 1 false (fun _ => 0) 5 3 5
    ![0] [![0], ![0], ![0]] [[![0]], [![0]]] (by with_unfolding_all decide)

/-- On a completed phase-one run the final point has nonpositive last
coordinate, and the loop continued exactly at stage-start points with
positive last coordinate. -/
theorem lem_barrier_loop_phase_one {m n : Nat} (lg : ℚ → ℚ) (c : Vec n)
    (A : Matrix (Fin m) (Fin n) ℚ) (b : Vec m) (eps mu : ℚ) (lsFuel nFuel : Nat) :
    ∀ fuel x t xf steps newt_steps,
      barrier_loop lg c A b eps mu true lsFuel nFuel x t fuel =
        some (xf, steps, newt_steps) →
      ¬ 0 < lastCoord xf
      ∧ ∀ j < newt_steps.length, ∀ p, (x :: steps)[j]? = some p →
          0 < lastCoord p := by
  intro fuel
  induction fuel with
  | zero => intro x t xf steps newts h; exact absurd h (by simp [barrier_loop])
  | succ fuel ih =>
    intro x t xf steps newts h
    rw [barrier_loop] at h
    by_cases hg : outer_guard true m eps t x = true
    · rw [if_pos hg] at h
      rw [lem_outer_guard_true, decide_eq_true_eq] at hg
      rcases hnm : newtons_method (barrier_f lg t c A b) (barrier_in_domain A b)
          (barrier_df t c A b) (barrier_ddf A b) x newton_default_eps lsFuel nFuel with
        _ | ⟨x1, inner⟩
      · rw [hnm] at h; exact absurd h (by simp)
      · rw [hnm] at h
        simp only at h
        rcases hrec : barrier_loop lg c A b eps mu true lsFuel nFuel x1 (t * mu)
            fuel with _ | ⟨xf', steps', newts'⟩
        · rw [hrec] at h; exact absurd h (by simp)
        · rw [hrec] at h
          obtain ⟨hstop, hcont⟩ := ih x1 (t * mu) xf' steps' newts' hrec
          obtain ⟨rfl, hpair⟩ := Prod.mk.inj (Option.some_inj.mp h)
          obtain ⟨rfl, rfl⟩ := Prod.mk.inj hpair
          refine ⟨hstop, ?_⟩
          intro j hj p hp
          rcases j with _ | j'
          · simp only [List.getElem?_cons_zero, Option.some_inj] at hp
            rw [← hp]; exact hg
          · rw [List.length_cons] at hj
            exact hcont j' (by omega) p (by simpa using hp)
    · rw [if_neg hg] at h
      rw [lem_outer_guard_true] at hg
      obtain ⟨rfl, hpair⟩ := Prod.mk.inj (Option.some_inj.mp h)
      obtain ⟨rfl, rfl⟩ := Prod.mk.inj hpair
      refine ⟨by simpa using hg, ?_⟩
      intro j hj; simp at hj

/-- Claim C9 fails as stated: a phase-one solve started at last coordinate
exactly zero terminates immediately although the last coordinate is not
strictly below zero. -/
theorem C9_counterexample :
    barrier_method ![0] !![(1:ℚ); -1] ![1, 1] ![0] 1 2 1 true (fun _ => 0) 1 1 1 =
      some (![0], [![0]], [])
    ∧ ¬ lastCoord (![0] : Vec 1) < 0 := by
  with_unfolding_all decide

/-- Claim C9 (amended): with phase_one true the loop continues exactly while
the last coordinate of the iterate is strictly positive, so it terminates as
soon as that coordinate is nonpositive (not necessarily strictly negative):
on a completed run the returned point has nonpositive last coordinate and
every stage was entered from a point with strictly positive last
coordinate. -/
theorem C9_phase_one_stopping {m n : Nat} (c : Vec n) (A : Matrix (Fin m) (Fin n) ℚ)
    (b : Vec m) (x_0 : Vec n) (eps mu t0 : ℚ) (lg : ℚ → ℚ) (lsFuel nFuel fuel : Nat)
    (xf : Vec n) (steps : List (Vec n)) (newt_steps : List (List (Vec n)))
    (hrun : barrier_method c A b x_0 eps mu t0 true lg lsFuel nFuel fuel =
      some (xf, steps, newt_steps)) :
    lastCoord xf ≤ 0
    ∧ ∀ j < newt_steps.length, ∀ p, steps[j]? = some p → 0 < lastCoord p := by
  obtain ⟨⟨xl, stepsl, newtsl⟩, hloop, hmap⟩ := Option.map_eq_some'.mp hrun
  obtain ⟨heq1, hpair⟩ := Prod.mk.inj hmap
  obtain ⟨heq2, heq3⟩ := Prod.mk.inj hpair
  obtain ⟨hstop, hcont⟩ :=
    lem_barrier_loop_phase_one lg c A b eps mu lsFuel nFuel fuel x_0 t0 xl stepsl
      newtsl hloop
  subst heq3
  refine ⟨le_of_not_lt (heq1 ▸ hstop), ?_⟩
  intro j hj p hp
  rw [← heq2] at hp
  exact hcont j hj p hp

/-- Concrete instantiation of the phase-one stopping claim: starting at last
coordinate -1 the loop does not run and returns that point. -/
theorem C9_phase_one_stopping_witness :
    lastCoord (![-1] : Vec 1) ≤ 0
    ∧ ∀ j < ([] : List (List (Vec 1))).length, ∀ p,
        [(![-1] : Vec 1)][j]? = some p → 0 < lastCoord p :=
  C9_phase_one_stopping ![0] !![(1:ℚ); -1] ![1, 1] ![-1] 1 2 1 (fun _ => 0) 1 1 1
    ![-1] [![-1]] [] (by with_unfolding_all decide)

/-- Claim C5 fails as stated: an infeasible starting point is accepted
without any eager check and the solve returns normally (here with zero
stages), never reporting a precondition violation. -/
theorem C5_counterexample :
    barrier_method ![0] !![(1:ℚ)] ![-1] ![0] 2 2 1 false (fun _ => 0) 1 1 1 =
      some (![0], [![0]], [])
    ∧ barrier_in_domain !![(1:ℚ)] ![-1] ![0] = false := by
  with_unfolding_all decide

/-- Claim C5 (amended): barrier_method performs no precondition check at
all: whenever the initial gap test already fails it returns successfully
with the unchecked initial point, whatever that point is (in particular an
infeasible one); dimension mismatches cannot arise in the typed model and
are not checked in the source either. -/
theorem C5_no_precondition_check {m n : Nat} (c : Vec n)
    (A : Matrix (Fin m) (Fin n) ℚ) (b : Vec m) (x_0 : Vec n) (eps mu t0 : ℚ)
    (lg : ℚ → ℚ) (lsFuel nFuel fuel : Nat) (hguard : ¬ eps ≤ (m : ℚ) / t0) :
    barrier_method c A b x_0 eps mu t0 false lg lsFuel nFuel (fuel + 1) =
      some (x_0, [x_0], []) := by
  rw [barrier_method, barrier_loop, if_neg (by
    rw [lem_outer_guard_false]; simpa using hguard)]
  rfl

/-- Concrete instantiation of the no-precondition-check claim at an
infeasible initial point. -/
theorem C5_no_precondition_check_witness :
    barrier_method ![0] !![(1:ℚ)] ![-1] ![0] 2 2 1 false (fun _ => 0) 1 1 (0 + 1) =
      some (![0], [![0]], []) :=
  C5_no_precondition_check ![0] !![(1:ℚ)] ![-1] ![0] 2 2 1 (fun _ => 0) 1 1 0
    (by norm_num)

/-! ### Simulation of the heap model by the pure model (claim C10) -/

theorem lem_write_next {k : Nat} (σ : Store k) (r : Nat) (v : Vec k) :
    (σ.write r v).next = σ.next := rfl

theorem lem_write_mem_self {k : Nat} (σ : Store k) (r : Nat) (v : Vec k) :
    (σ.write r v).mem r = v := by simp [Store.write]

theorem lem_write_mem_ne {k : Nat} (σ : Store k) (r : Nat) (v : Vec k) (s : Nat)
    (h : s ≠ r) : (σ.write r v).mem s = σ.mem s := by simp [Store.write, h]

theorem lem_alloc_next {k : Nat} (σ : Store k) (v : Vec k) :
    ((σ.alloc v).2).next = σ.next + 1 := rfl

theorem lem_alloc_fst {k : Nat} (σ : Store k) (v : Vec k) :
    (σ.alloc v).1 = σ.next := rfl

theorem lem_alloc_mem_new {k : Nat} (σ : Store k) (v : Vec k) :
    ((σ.alloc v).2).mem σ.next = v := by simp [Store.alloc]

theorem lem_alloc_mem_ne {k : Nat} (σ : Store k) (v : Vec k) (s : Nat)
    (h : s ≠ σ.next) : ((σ.alloc v).2).mem s = σ.mem s := by simp [Store.alloc, h]

/-- The heap Newton loop simulates the pure Newton loop: it diverges exactly
when the pure loop does, returns the same cell it was given, writes only
that cell among the old ones, ends with the pure final point in that cell,
and its trace cells are fresh, within bounds, and hold exactly the pure
trace. -/
theorem lem_newton_heap_sim {k : Nat} (f : Vec k → ℚ) (in_domain_of_f : Vec k → Bool)
    (df : Vec k → Vec k) (ddf : Vec k → Matrix (Fin k) (Fin k) ℚ)
    (eps : ℚ) (lsFuel : Nat) :
    ∀ fuel (σ : Store k) (rx : Nat), rx < σ.next →
      (newton_loop f in_domain_of_f df ddf eps lsFuel (σ.mem rx) fuel = none →
        newton_loop_heap f in_domain_of_f df ddf eps lsFuel rx σ fuel = none)
      ∧ ∀ xf rest,
          newton_loop f in_domain_of_f df ddf eps lsFuel (σ.mem rx) fuel =
            some (xf, rest) →
          ∃ refs σf,
            newton_loop_heap f in_domain_of_f df ddf eps lsFuel rx σ fuel =
              some (rx, refs, σf)
            ∧ σ.next ≤ σf.next
            ∧ (∀ r, r < σ.next → r ≠ rx → σf.mem r = σ.mem r)
            ∧ σf.mem rx = xf
            ∧ refs.map σf.mem = rest
            ∧ ∀ ρ ∈ refs, σ.next ≤ ρ ∧ ρ < σf.next := by
  intro fuel
  induction fuel with
  | zero =>
    intro σ rx _
    exact ⟨fun _ => rfl, fun xf rest h => absurd h (by simp [newton_loop])⟩
  | succ fuel ih =>
    intro σ rx hrx
    constructor
    · intro hpure
      rw [newton_loop] at hpure
      rw [newton_loop_heap]
      rcases hsol : linsolve (ddf (σ.mem rx)) (df (σ.mem rx)) with _ | sol
      · rfl
      · rw [hsol] at hpure
        simp only at hpure ⊢
        by_cases hstop : -(df (σ.mem rx) ⬝ᵥ -sol) / 2 ≤ eps
        · rw [if_pos hstop] at hpure
          exact absurd hpure (by simp)
        · rw [if_neg hstop] at hpure
          rw [if_neg hstop]
          rcases hls : backtracking_line_search f in_domain_of_f df (σ.mem rx) (-sol)
              line_search_default_alpha line_search_default_beta lsFuel with _ | t
          · rfl
          · rw [hls] at hpure
            simp only at hpure ⊢
            rcases hrecp : newton_loop f in_domain_of_f df ddf eps lsFuel
                (σ.mem rx + t • -sol) fuel with _ | pr
            · have hmem : ((((σ.write rx (σ.mem rx + t • -sol)).alloc
                  ((σ.write rx (σ.mem rx + t • -sol)).mem rx)).2).mem rx) =
                  σ.mem rx + t • -sol := by
                rw [lem_alloc_mem_ne _ _ rx (by rw [lem_write_next]; omega),
                  lem_write_mem_self]
              have hrx2 : rx < (((σ.write rx (σ.mem rx + t • -sol)).alloc
                  ((σ.write rx (σ.mem rx + t • -sol)).mem rx)).2).next := by
                rw [lem_alloc_next, lem_write_next]; omega
              have hnone := (ih _ rx hrx2).1 (by rw [hmem]; exact hrecp)
              rw [hnone]
            · rw [hrecp] at hpure
              exact absurd hpure (by simp)
    · intro xf rest hpure
      rw [newton_loop] at hpure
      rw [newton_loop_heap]
      rcases hsol : linsolve (ddf (σ.mem rx)) (df (σ.mem rx)) with _ | sol
      · rw [hsol] at hpure; exact absurd hpure (by simp)
      · rw [hsol] at hpure
        simp only at hpure ⊢
        by_cases hstop : -(df (σ.mem rx) ⬝ᵥ -sol) / 2 ≤ eps
        · rw [if_pos hstop] at hpure ⊢
          obtain ⟨hxf, hrest⟩ := Prod.mk.inj (Option.some_inj.mp hpure)
          refine ⟨[], σ, rfl, le_refl _, fun r _ _ => rfl, hxf, ?_, ?_⟩
          · rw [← hrest]; rfl
          · intro ρ hρ; exact absurd hρ (List.not_mem_nil ρ)
        · rw [if_neg hstop] at hpure ⊢
          rcases hls : backtracking_line_search f in_domain_of_f df (σ.mem rx) (-sol)
              line_search_default_alpha line_search_default_beta lsFuel with _ | t
          · rw [hls] at hpure; exact absurd hpure (by simp)
          · rw [hls] at hpure
            simp only at hpure ⊢
            rcases hrecp : newton_loop f in_domain_of_f df ddf eps lsFuel
                (σ.mem rx + t • -sol) fuel with _ | ⟨xf', rest'⟩
            · rw [hrecp] at hpure; exact absurd hpure (by simp)
            · rw [hrecp] at hpure
              simp only at hpure
              obtain ⟨hxf, hrest⟩ := Prod.mk.inj (Option.some_inj.mp hpure)
              set σ2 := (((σ.write rx (σ.mem rx + t • -sol)).alloc
                ((σ.write rx (σ.mem rx + t • -sol)).mem rx)).2) with hσ2
              have hmem : σ2.mem rx = σ.mem rx + t • -sol := by
                rw [hσ2, lem_alloc_mem_ne _ _ rx (by rw [lem_write_next]; omega),
                  lem_write_mem_self]
              have hnext2 : σ2.next = σ.next + 1 := by
                rw [hσ2, lem_alloc_next, lem_write_next]
              have hrx2 : rx < σ2.next := by omega
              obtain ⟨refs', σf, hheap, hle, hpres, hmemf, hmap, hbounds⟩ :=
                (ih σ2 rx hrx2).2 xf' rest' (by rw [hmem]; exact hrecp)
              have hmemnew : σ2.mem σ.next = σ.mem rx + t • -sol := by
                rw [hσ2]
                have : (σ.write rx (σ.mem rx + t • -sol)).next = σ.next :=
                  lem_write_next _ _ _
                rw [show σ.next = (σ.write rx (σ.mem rx + t • -sol)).next from
                  this.symm, lem_alloc_mem_new, lem_write_mem_self]
              refine ⟨σ.next :: refs', σf, ?_, by omega, ?_, hxf ▸ hmemf, ?_, ?_⟩
              · rw [hheap]
                rfl
              · intro r hr hne
                have h1 : σf.mem r = σ2.mem r := hpres r (by omega) hne
                rw [h1, hσ2, lem_alloc_mem_ne _ _ r (by rw [lem_write_next]; omega),
                  lem_write_mem_ne _ _ _ _ hne]
              · rw [List.map_cons, hmap, ← hrest]
                have : σf.mem σ.next = σ2.mem σ.next :=
                  hpres σ.next (by omega) (by omega)
                rw [this, hmemnew]
              · intro ρ hρ
                rcases List.mem_cons.mp hρ with h0 | h1
                · subst h0; omega
                · have := hbounds ρ h1; omega

/-- The heap newtons_method simulates the pure one, with the same frame
conditions as the loop, the initial copy included in the trace cells. -/
theorem lem_newtons_method_heap_sim {k : Nat} (f : Vec k → ℚ)
    (in_domain_of_f : Vec k → Bool) (df : Vec k → Vec k)
    (ddf : Vec k → Matrix (Fin k) (Fin k) ℚ) (eps : ℚ) (lsFuel fuel : Nat)
    (σ : Store k) (rx : Nat) (hrx : rx < σ.next) :
    (newtons_method f in_domain_of_f df ddf (σ.mem rx) eps lsFuel fuel = none →
      newtons_method_heap f in_domain_of_f df ddf rx σ eps lsFuel fuel = none)
    ∧ ∀ xf trace,
        newtons_method f in_domain_of_f df ddf (σ.mem rx) eps lsFuel fuel =
          some (xf, trace) →
        ∃ refs σf,
          newtons_method_heap f in_domain_of_f df ddf rx σ eps lsFuel fuel =
            some (rx, refs, σf)
          ∧ σ.next ≤ σf.next
          ∧ (∀ r, r < σ.next → r ≠ rx → σf.mem r = σ.mem r)
          ∧ σf.mem rx = xf
          ∧ refs.map σf.mem = trace
          ∧ ∀ ρ ∈ refs, σ.next ≤ ρ ∧ ρ < σf.next := by
  have hσ1mem : ((σ.alloc (σ.mem rx)).2).mem rx = σ.mem rx :=
    lem_alloc_mem_ne _ _ rx (by omega)
  have hσ1next : ((σ.alloc (σ.mem rx)).2).next = σ.next + 1 := lem_alloc_next _ _
  have hrx1 : rx < ((σ.alloc (σ.mem rx)).2).next := by omega
  constructor
  · intro hpure
    rw [newtons_method] at hpure
    rw [newtons_method_heap]
    have hl : newton_loop f in_domain_of_f df ddf eps lsFuel (σ.mem rx) fuel =
        none := by
      rcases h : newton_loop f in_domain_of_f df ddf eps lsFuel (σ.mem rx) fuel with
        _ | r
      · rfl
      · rw [h] at hpure; exact absurd hpure (by simp)
    have hh := (lem_newton_heap_sim f in_domain_of_f df ddf eps lsFuel fuel _ rx
      hrx1).1 (by rw [hσ1mem]; exact hl)
    simp [hh]
  · intro xf trace hpure
    rw [newtons_method] at hpure
    obtain ⟨⟨xl, restl⟩, hl, hmap⟩ := Option.map_eq_some'.mp hpure
    obtain ⟨hxeq, htr⟩ := Prod.mk.inj hmap
    obtain ⟨refs', σf, hheap, hle, hpres, hmemf, hmaps, hbounds⟩ :=
      (lem_newton_heap_sim f in_domain_of_f df ddf eps lsFuel fuel _ rx hrx1).2
        xl restl (by rw [hσ1mem]; exact hl)
    refine ⟨σ.next :: refs', σf, ?_, by omega, ?_, hxeq ▸ hmemf, ?_, ?_⟩
    · rw [newtons_method_heap]
      simp [hheap]
    · intro r hr hne
      rw [hpres r (by omega) hne, lem_alloc_mem_ne _ _ r (by omega)]
    · rw [List.map_cons, hmaps, ← htr]
      have h0 : σf.mem σ.next = ((σ.alloc (σ.mem rx)).2).mem σ.next :=
        hpres σ.next (by omega) (by omega)
      rw [h0, lem_alloc_mem_new]
    · intro ρ hρ
      rcases List.mem_cons.mp hρ with h0 | h1
      · subst h0; omega
      · have := hbounds ρ h1; omega

/-- The heap outer loop simulates the pure outer loop: same divergence, the
returned cell is the working cell holding the pure final point, old cells
other than the working cell are untouched, and trace cells are fresh and
deref to the pure traces. -/
theorem lem_barrier_loop_heap_sim {m n : Nat} (lg : ℚ → ℚ) (c : Vec n)
    (A : Matrix (Fin m) (Fin n) ℚ) (b : Vec m) (eps mu : ℚ) (phase_one : Bool)
    (lsFuel nFuel : Nat) :
    ∀ fuel (σ : Store n) (rx : Nat) (t : ℚ), rx < σ.next →
      (barrier_loop lg c A b eps mu phase_one lsFuel nFuel (σ.mem rx) t fuel =
          none →
        barrier_loop_heap lg c A b eps mu phase_one lsFuel nFuel rx t σ fuel = none)
      ∧ ∀ xf steps newt_steps,
          barrier_loop lg c A b eps mu phase_one lsFuel nFuel (σ.mem rx) t fuel =
            some (xf, steps, newt_steps) →
          ∃ srefs nrefs σf,
            barrier_loop_heap lg c A b eps mu phase_one lsFuel nFuel rx t σ fuel =
              some (rx, srefs, nrefs, σf)
            ∧ σ.next ≤ σf.next
            ∧ (∀ r, r < σ.next → r ≠ rx → σf.mem r = σ.mem r)
            ∧ σf.mem rx = xf
            ∧ srefs.map σf.mem = steps
            ∧ nrefs.map (List.map σf.mem) = newt_steps
            ∧ (∀ ρ ∈ srefs, σ.next ≤ ρ ∧ ρ < σf.next)
            ∧ ∀ l ∈ nrefs, ∀ ρ ∈ l, σ.next ≤ ρ ∧ ρ < σf.next := by
  intro fuel
  induction fuel with
  | zero =>
    intro σ rx t _
    exact ⟨fun _ => rfl, fun xf steps newts h => absurd h (by simp [barrier_loop])⟩
  | succ fuel ih =>
    intro σ rx t hrx
    constructor
    · intro hpure
      rw [barrier_loop] at hpure
      rw [barrier_loop_heap]
      by_cases hg : outer_guard phase_one m eps t (σ.mem rx) = true
      · rw [if_pos hg] at hpure ⊢
        rcases hnm : newtons_method (barrier_f lg t c A b) (barrier_in_domain A b)
            (barrier_df t c A b) (barrier_ddf A b) (σ.mem rx) newton_default_eps
            lsFuel nFuel with _ | ⟨x1, inner⟩
        · have hh := (lem_newtons_method_heap_sim (barrier_f lg t c A b)
            (barrier_in_domain A b) (barrier_df t c A b) (barrier_ddf A b)
            newton_default_eps lsFuel nFuel σ rx hrx).1 hnm
          rw [hh]
        · rw [hnm] at hpure
          simp only at hpure
          obtain ⟨refs_i, σf1, hheap1, hle1, hpres1, hmem1, hmap1, hbounds1⟩ :=
            (lem_newtons_method_heap_sim (barrier_f lg t c A b)
              (barrier_in_domain A b) (barrier_df t c A b) (barrier_ddf A b)
              newton_default_eps lsFuel nFuel σ rx hrx).2 x1 inner hnm
          rw [hheap1]
          simp only
          rcases hrecp : barrier_loop lg c A b eps mu phase_one lsFuel nFuel x1
              (t * mu) fuel with _ | pr
          · have hnext2 : ((σf1.alloc (σf1.mem rx)).2).next = σf1.next + 1 :=
              lem_alloc_next _ _
            have hmem2 : ((σf1.alloc (σf1.mem rx)).2).mem rx = x1 := by
              rw [lem_alloc_mem_ne _ _ rx (by omega), hmem1]
            have hrx2 : rx < ((σf1.alloc (σf1.mem rx)).2).next := by omega
            have := (ih _ rx (t * mu) hrx2).1 (by rw [hmem2]; exact hrecp)
            rw [this]
          · rw [hrecp] at hpure
            exact absurd hpure (by simp)
      · rw [if_neg hg] at hpure
        exact absurd hpure (by simp)
    · intro xf steps newts hpure
      rw [barrier_loop] at hpure
      rw [barrier_loop_heap]
      by_cases hg : outer_guard phase_one m eps t (σ.mem rx) = true
      · rw [if_pos hg] at hpure ⊢
        rcases hnm : newtons_method (barrier_f lg t c A b) (barrier_in_domain A b)
            (barrier_df t c A b) (barrier_ddf A b) (σ.mem rx) newton_default_eps
            lsFuel nFuel with _ | ⟨x1, inner⟩
        · rw [hnm] at hpure; exact absurd hpure (by simp)
        · rw [hnm] at hpure
          simp only at hpure
          obtain ⟨refs_i, σf1, hheap1, hle1, hpres1, hmem1, hmap1, hbounds1⟩ :=
            (lem_newtons_method_heap_sim (barrier_f lg t c A b)
              (barrier_in_domain A b) (barrier_df t c A b) (barrier_ddf A b)
              newton_default_eps lsFuel nFuel σ rx hrx).2 x1 inner hnm
          rw [hheap1]
          simp only
          rcases hrecp : barrier_loop lg c A b eps mu phase_one lsFuel nFuel x1
              (t * mu) fuel with _ | ⟨xf', steps', newts'⟩
          · rw [hrecp] at hpure; exact absurd hpure (by simp)
          · rw [hrecp] at hpure
            simp only at hpure
            obtain ⟨hxf, hpair⟩ := Prod.mk.inj (Option.some_inj.mp hpure)
            obtain ⟨hsteps, hnewts⟩ := Prod.mk.inj hpair
            have hnext2 : ((σf1.alloc (σf1.mem rx)).2).next = σf1.next + 1 :=
              lem_alloc_next _ _
            have hmem2 : ((σf1.alloc (σf1.mem rx)).2).mem rx = x1 := by
              rw [lem_alloc_mem_ne _ _ rx (by omega), hmem1]
            have hrx2 : rx < ((σf1.alloc (σf1.mem rx)).2).next := by omega
            obtain ⟨srefs', nrefs', σf, hheap2, hle2, hpres2, hmemf, hsmap, hnmap,
                hsb, hnb⟩ :=
              (ih _ rx (t * mu) hrx2).2 xf' steps' newts'
                (by rw [hmem2]; exact hrecp)
            refine ⟨σf1.next :: srefs', refs_i :: nrefs', σf, ?_, by omega, ?_,
              hxf ▸ hmemf, ?_, ?_, ?_, ?_⟩
            · rw [hheap2]
            · intro r hr hne
              rw [hpres2 r (by omega) hne, lem_alloc_mem_ne _ _ r (by omega),
                hpres1 r hr hne]
            · rw [List.map_cons, hsmap, ← hsteps]
              have h0 : σf.mem σf1.next = ((σf1.alloc (σf1.mem rx)).2).mem σf1.next :=
                hpres2 σf1.next (by omega) (by omega)
              rw [h0, lem_alloc_mem_new, hmem1]
            · rw [List.map_cons, hnmap, ← hnewts]
              have h0 : refs_i.map σf.mem = refs_i.map σf1.mem := by
                refine List.map_congr_left (fun ρ hρ => ?_)
                have hb := hbounds1 ρ hρ
                rw [hpres2 ρ (by omega) (by omega), lem_alloc_mem_ne _ _ ρ (by omega)]
              rw [h0, hmap1]
            · intro ρ hρ
              rcases List.mem_cons.mp hρ with h0 | h1
              · subst h0; omega
              · have := hsb ρ h1; omega
            · intro l hl
              rcases List.mem_cons.mp hl with h0 | h1
              · intro ρ hρ
                have hb := hbounds1 ρ (h0 ▸ hρ)
                omega
              · intro ρ hρ
                have := hnb l h1 ρ hρ
                omega
      · rw [if_neg hg] at hpure
        obtain ⟨hxf, hpair⟩ := Prod.mk.inj (Option.some_inj.mp hpure)
        obtain ⟨hsteps, hnewts⟩ := Prod.mk.inj hpair
        rw [if_neg hg]
        refine ⟨[], [], σ, rfl, le_refl _, fun r _ _ => rfl, hxf, ?_, ?_, ?_, ?_⟩
        · rw [← hsteps]; rfl
        · rw [← hnewts]; rfl
        · intro ρ hρ; exact absurd hρ (List.not_mem_nil ρ)
        · intro l hl; exact absurd hl (List.not_mem_nil l)

/-- Claim C10: the heap run of the solver agrees with the pure run: it
fails exactly when the pure run does, and on success every cell the caller
allocated before the call (the inputs, x_0 included) is unchanged, the
returned cell holds the pure final point, and the trace cells are
independent snapshots holding exactly the pure traces - so the in-place
updates of the working cell never alter the inputs or earlier trace
entries. -/
theorem C10_inputs_unchanged {m n : Nat} (c : Vec n) (A : Matrix (Fin m) (Fin n) ℚ)
    (b : Vec m) (eps mu t0 : ℚ) (phase_one : Bool) (lg : ℚ → ℚ)
    (lsFuel nFuel fuel : Nat) (σ : Store n) (rx0 : Nat) (hrx : rx0 < σ.next) :
    (barrier_method_heap c A b rx0 eps mu t0 phase_one lg lsFuel nFuel fuel σ =
        none ↔
      barrier_method c A b (σ.mem rx0) eps mu t0 phase_one lg lsFuel nFuel fuel =
        none)
    ∧ ∀ rf srefs nrefs σf,
        barrier_method_heap c A b rx0 eps mu t0 phase_one lg lsFuel nFuel fuel σ =
          some (rf, srefs, nrefs, σf) →
        ∃ xf steps newt_steps,
          barrier_method c A b (σ.mem rx0) eps mu t0 phase_one lg lsFuel nFuel
            fuel = some (xf, steps, newt_steps)
          ∧ (∀ r, r < σ.next → σf.mem r = σ.mem r)
          ∧ σf.mem rf = xf
          ∧ srefs.map σf.mem = steps
          ∧ nrefs.map (List.map σf.mem) = newt_steps := by
  have hσ1next : ((σ.alloc (σ.mem rx0)).2).next = σ.next + 1 := lem_alloc_next _ _
  have hσ1rx : ((σ.alloc (σ.mem rx0)).2).mem σ.next = σ.mem rx0 :=
    lem_alloc_mem_new _ _
  set σ1 := (σ.alloc (σ.mem rx0)).2 with hσ1
  have hσ2next : ((σ1.alloc (σ1.mem σ.next)).2).next = σ.next + 2 := by
    rw [lem_alloc_next]; omega
  have hσ2rx : ((σ1.alloc (σ1.mem σ.next)).2).mem σ.next = σ.mem rx0 := by
    rw [lem_alloc_mem_ne _ _ _ (by omega), hσ1rx]
  have hσ2r0 : ((σ1.alloc (σ1.mem σ.next)).2).mem σ1.next = σ.mem rx0 := by
    rw [lem_alloc_mem_new, hσ1rx]
  set σ2 := (σ1.alloc (σ1.mem σ.next)).2 with hσ2
  have hrx2 : σ.next < σ2.next := by omega
  have hsim := lem_barrier_loop_heap_sim lg c A b eps mu phase_one lsFuel nFuel
    fuel σ2 σ.next t0 hrx2
  have hpure_eq : σ2.mem σ.next = σ.mem rx0 := hσ2rx
  constructor
  · constructor
    · intro hheap
      rw [barrier_method_heap] at hheap
      rw [barrier_method]
      rcases hp : barrier_loop lg c A b eps mu phase_one lsFuel nFuel (σ.mem rx0)
          t0 fuel with _ | ⟨xf, steps, newts⟩
      · rfl
      · obtain ⟨srefs'', nrefs'', σf'', hlh, _⟩ :=
          hsim.2 xf steps newts (by rw [hpure_eq]; exact hp)
        rw [hlh] at hheap
        exact absurd hheap (by simp)
    · intro hpure
      rw [barrier_method] at hpure
      rw [barrier_method_heap]
      have hl : barrier_loop lg c A b eps mu phase_one lsFuel nFuel (σ.mem rx0)
          t0 fuel = none := by
        rcases h : barrier_loop lg c A b eps mu phase_one lsFuel nFuel (σ.mem rx0)
            t0 fuel with _ | r
        · rfl
        · rw [h] at hpure; exact absurd hpure (by simp)
      have hlh := hsim.1 (by rw [hpure_eq]; exact hl)
      rw [hlh]
      rfl
  · intro rf srefs nrefs σf hheap
    rw [barrier_method_heap] at hheap
    obtain ⟨⟨rf', srefs', nrefs', σf'⟩, hlh, hmapeq⟩ :=
      Option.map_eq_some'.mp hheap
    obtain ⟨hrf, hpair1⟩ := Prod.mk.inj hmapeq
    obtain ⟨hsrefs, hpair2⟩ := Prod.mk.inj hpair1
    obtain ⟨hnrefs, hσf⟩ := Prod.mk.inj hpair2
    rcases hp : barrier_loop lg c A b eps mu phase_one lsFuel nFuel (σ.mem rx0)
        t0 fuel with _ | ⟨xf, steps, newts⟩
    · have := hsim.1 (by rw [hpure_eq]; exact hp)
      rw [this] at hlh
      exact absurd hlh (by simp)
    · obtain ⟨srefs'', nrefs'', σf'', hlh2, hle, hpres, hmem, hsmap, hnmap, hsb,
          hnb⟩ := hsim.2 xf steps newts (by rw [hpure_eq]; exact hp)
      rw [hlh2] at hlh
      obtain ⟨hr1, hpair1'⟩ := Prod.mk.inj (Option.some_inj.mp hlh)
      obtain ⟨hs1, hpair2'⟩ := Prod.mk.inj hpair1'
      obtain ⟨hn1, hst1⟩ := Prod.mk.inj hpair2'
      subst hr1; subst hs1; subst hn1; subst hst1
      subst hrf; subst hsrefs; subst hnrefs; subst hσf
      refine ⟨xf, σ.mem rx0 :: steps, newts, ?_, ?_, hmem, ?_, hnmap⟩
      · rw [barrier_method, hp]
        rfl
      · intro r hr
        have e2 : σ2.mem r = σ1.mem r := by
          rw [hσ2]; exact lem_alloc_mem_ne σ1 (σ1.mem σ.next) r (by omega)
        have e3 : σ1.mem r = σ.mem r := by
          rw [hσ1]; exact lem_alloc_mem_ne σ (σ.mem rx0) r (by omega)
        rw [hpres r (by omega) (by omega), e2, e3]
      · rw [List.map_cons, hsmap, hpres σ1.next (by omega) (by omega), hσ2r0]

/-- Concrete instantiation of the no-mutation claim: after a full heap run
started from the input cell 0, that cell still holds the original x_0. -/
theorem C10_inputs_unchanged_witness :
    (barrier_method_heap ![0] !![(1:ℚ); -1] ![1, 1] 0 1 2 1 false (fun _ => 0)
        5 3 5 (Store.mk 1 (fun _ => ![0]))).map (fun r => r.2.2.2.mem 0) =
      some ![0] := by
  have hknown : barrier_method ![0] !![(1:ℚ); -1] ![1, 1]
      ((Store.mk 1 (fun _ => (![0] : Vec 1))).mem 0) 1 2 1 false (fun _ => 0)
      5 3 5 = some (![0], [![0], ![0], ![0]], [[![0]], [![0]]]) := by
    with_unfolding_all decide
  rcases hh : barrier_method_heap ![0] !![(1:ℚ); -1] ![1, 1] 0 1 2 1 false
      (fun _ => 0) 5 3 5 (Store.mk 1 (fun _ => ![0])) with _ | ⟨rf, srefs, nrefs, σf⟩
  · have hpure := (C10_inputs_unchanged ![0] !![(1:ℚ); -1] ![1, 1] 1 2 1 false
      (fun _ => 0) 5 3 5 (Store.mk 1 (fun _ => ![0])) 0 (by decide)).1.mp hh
    rw [hknown] at hpure
    exact absurd hpure (by simp)
  · obtain ⟨xf, steps, newts, hpure, hpres, _⟩ :=
      (C10_inputs_unchanged ![0] !![(1:ℚ); -1] ![1, 1] 1 2 1 false
        (fun _ => 0) 5 3 5 (Store.mk 1 (fun _ => ![0])) 0 (by decide)).2
        rf srefs nrefs σf hh
    simp only [Option.map_some']
    exact congrArg some (hpres 0 (by decide))

end Barrier
